import Mathlib

/-!
Verification of the FPCS (Fast Probabilistic Consensus on Sets) simulator core.

This development is a shallow embedding of the simulator's Rust sources
(`src/fpcs.rs`, `src/aux_types.rs`, `src/constants.rs`) into Lean:

* `Opinion`, `intersects`, `Opinion.is_like` / `is_none` / `is_final` mirror
  `aux_types.rs`.
* `elim`, `comp`, `update_one` / `update_opinions`, `threshold_and_aux` mirror
  the methods of `Node` in `fpcs.rs`.  The per-round hash-derived total order
  on transaction ids (`HashedTxId`) is abstracted as an arbitrary key function
  `key : TxId → ℕ`; the sorting passes of `elim` and `comp` sort by that key,
  which is all the verified properties depend on.
* `generate_complete_conflict_graph`, `generate_star_conflict_graph`,
  `generate_new`, `fill_loop` / `initialize_node_opinions` mirror the database
  construction in `fpcs.rs`.  Machine integers are modelled as `ℕ` (all the
  arithmetic involved is overflow-free: the `u128` intermediate products in the
  Rust code cannot wrap).  Rust panics are modelled as `Except PanicKind`.
* A node's vision is modelled by its two components: an immutable conflict
  assignment `conflicts : TxId → List TxId` and a mutable opinion assignment
  `ops : TxId → Opinion` (the conflict sets of a vision are never modified by
  the operations under study).
-/

namespace FPCS

/-- Transaction identifiers: the source's `TxId` wraps a `u32`; only equality
and (via the abstracted hash) ordering of ids matter here. -/
abbrev TxId := ℕ

/-- Node identifiers (source: `NodeId`, wrapping a `u32`). -/
abbrev NodeId := ℕ

/-- Source `Opinion` enum: `None`, `Pending(bool, u32)`, `Final(bool)`. -/
inductive Opinion where
  | none : Opinion
  | pending : Bool → ℕ → Opinion
  | final : Bool → Opinion
  deriving DecidableEq, Repr

/-- Source `Opinion::is_like`. -/
def Opinion.is_like : Opinion → Bool
  | Opinion.final l => l
  | Opinion.pending l _ => l
  | Opinion.none => false

/-- Source `Opinion::is_none`. -/
def Opinion.is_none : Opinion → Bool
  | Opinion.none => true
  | _ => false

/-- Source `Opinion::is_final`. -/
def Opinion.is_final : Opinion → Bool
  | Opinion.final _ => true
  | _ => false

/-- Source constant `K` (sample size) from `constants.rs`. -/
def K : ℕ := 5

/-- Source constant `L` (finalization streak) from `constants.rs`. -/
def L : ℕ := 5

/-- Source free function `intersects` from `aux_types.rs`: walks `vec1` and
tests membership in `vec2`. -/
def intersects (vec1 vec2 : List TxId) : Bool :=
  vec1.any (fun id => vec2.contains id)

/-- One insertion step of the descending sort used by `Node::elim`
(`sort_by` with comparator `hash_b.cmp(&hash_a)`), with the hash abstracted
as `key`. -/
def insert_desc (key : TxId → ℕ) (x : TxId × Bool) :
    List (TxId × Bool) → List (TxId × Bool)
  | [] => [x]
  | y :: ys =>
    if key y.1 ≤ key x.1 then x :: y :: ys else y :: insert_desc key x ys

/-- Sort by hashed id, largest first (order used by `Node::elim`). -/
def sort_desc (key : TxId → ℕ) : List (TxId × Bool) → List (TxId × Bool)
  | [] => []
  | x :: xs => insert_desc key x (sort_desc key xs)

/-- One insertion step of the ascending sort used by `Node::comp`. -/
def insert_asc (key : TxId → ℕ) (x : TxId × Bool) :
    List (TxId × Bool) → List (TxId × Bool)
  | [] => [x]
  | y :: ys =>
    if key x.1 ≤ key y.1 then x :: y :: ys else y :: insert_asc key x ys

/-- Sort by hashed id, smallest first (order used by `Node::comp`). -/
def sort_asc (key : TxId → ℕ) : List (TxId × Bool) → List (TxId × Bool)
  | [] => []
  | x :: xs => insert_asc key x (sort_asc key xs)

/-- The initial `liked_set` of `Node::elim` / `Node::comp`: the ids of the
entries currently mapped to `true`. -/
def liked_set_of (aux : List (TxId × Bool)) : List TxId :=
  (aux.filter (fun p => p.2)).map (fun p => p.1)

/-- The mutation loop of `Node::elim`: walks the (sorted) auxiliary opinion;
for each entry still `true` whose conflict set meets the current `liked_set`,
flips it to `false` and removes it from `liked_set` (Rust's
`retain(|&x| x != *txid)`).  Returns the rewritten vector together with the
final `liked_set`. -/
def elim_loop (conflicts : TxId → List TxId) :
    List (TxId × Bool) → List TxId → List (TxId × Bool) × List TxId
  | [], liked => ([], liked)
  | (txid, opinion) :: rest, liked =>
    if opinion then
      if intersects (conflicts txid) liked then
        let r := elim_loop conflicts rest (liked.filter (fun x => x ≠ txid))
        ((txid, false) :: r.1, r.2)
      else
        let r := elim_loop conflicts rest liked
        ((txid, true) :: r.1, r.2)
    else
      let r := elim_loop conflicts rest liked
      ((txid, opinion) :: r.1, r.2)

/-- Source `Node::elim`: sort descending by hashed id, then run the
elimination loop starting from the liked entries of the sorted vector. -/
def elim (conflicts : TxId → List TxId) (key : TxId → ℕ)
    (aux : List (TxId × Bool)) : List (TxId × Bool) :=
  let sorted := sort_desc key aux
  (elim_loop conflicts sorted (liked_set_of sorted)).1

/-- The mutation loop of `Node::comp`: walks the (sorted) auxiliary opinion;
for each entry currently `false` whose conflict set misses the current
`liked_set`, flips it to `true` and pushes it onto `liked_set`. -/
def comp_loop (conflicts : TxId → List TxId) :
    List (TxId × Bool) → List TxId → List (TxId × Bool) × List TxId
  | [], liked => ([], liked)
  | (txid, opinion) :: rest, liked =>
    if opinion then
      let r := comp_loop conflicts rest liked
      ((txid, opinion) :: r.1, r.2)
    else
      if intersects (conflicts txid) liked then
        let r := comp_loop conflicts rest liked
        ((txid, opinion) :: r.1, r.2)
      else
        let r := comp_loop conflicts rest (liked ++ [txid])
        ((txid, true) :: r.1, r.2)

/-- Source `Node::comp`: sort ascending by hashed id, then run the
completion loop starting from the liked entries of the sorted vector. -/
def comp (conflicts : TxId → List TxId) (key : TxId → ℕ)
    (aux : List (TxId × Bool)) : List (TxId × Bool) :=
  let sorted := sort_asc key aux
  (comp_loop conflicts sorted (liked_set_of sorted)).1

/-- Source `Vision::set_opinion`, on the opinion component of a vision. -/
def set_opinion (ops : TxId → Opinion) (tx : TxId) (o : Opinion) :
    TxId → Opinion :=
  fun t => if t = tx then o else ops t

/-- The cascade of `Node::update_opinions`: write `Final(false)` over every
conflicter of a newly finalized transaction, in order. -/
def cascade_finalize (ops : TxId → Opinion) (conflicts : List TxId) :
    TxId → Opinion :=
  conflicts.foldl (fun acc c => set_opinion acc c (Opinion.final false)) ops

/-- The `match` of `Node::update_opinions` on the prior opinion (already
read from the vision, as the Rust code does with `to_owned`):
`Pending(a, b)` with `a && new_opinion && b >= L-1` finalizes `true` and
cascades `Final(false)` over the conflict set; agreeing `Pending` bumps the
streak; disagreeing `Pending` resets it; `Final` and `None` are untouched. -/
def update_one_body (conflicts : TxId → List TxId) (ops : TxId → Opinion)
    (id : TxId) (new_opinion : Bool) : Opinion → (TxId → Opinion)
  | Opinion.pending a b =>
    if a && new_opinion && decide (L - 1 ≤ b) then
      cascade_finalize (set_opinion ops id (Opinion.final true)) (conflicts id)
    else if a == new_opinion then
      set_opinion ops id (Opinion.pending a (b + 1))
    else
      set_opinion ops id (Opinion.pending new_opinion 0)
  | _ => ops

/-- One iteration of the loop of `Node::update_opinions`, for the entry
`p = (id, new_opinion)`. -/
def update_one (conflicts : TxId → List TxId) (ops : TxId → Opinion)
    (p : TxId × Bool) : TxId → Opinion :=
  update_one_body conflicts ops p.1 p.2 (ops p.1)

/-- Source `Node::update_opinions`: fold `update_one` over the new opinion
vector produced by `collect_and_set_new_opinion`. -/
def update_opinions (conflicts : TxId → List TxId) (ops : TxId → Opinion)
    (new_opinions : List (TxId × Bool)) : TxId → Opinion :=
  new_opinions.foldl (update_one conflicts) ops

/-- A sequence of per-round updates applied to one node's opinions: each
element of `rounds` is the new-opinion vector that round's
`collect_and_set_new_opinion` produced for this node. -/
def run_rounds (conflicts : TxId → List TxId) (ops : TxId → Opinion)
    (rounds : List (List (TxId × Bool))) : TxId → Opinion :=
  rounds.foldl (update_opinions conflicts) ops

/-- The reachability invariant binding final opinions to the conflict graph:
every transaction finally liked has all of its conflicters finally disliked.
It holds for freshly initialized visions (no `Final` at all) and is preserved
by `update_opinions`. -/
def FinalIndep (conflicts : TxId → List TxId) (ops : TxId → Opinion) : Prop :=
  ∀ t, ops t = Opinion.final true →
    ∀ u ∈ conflicts t, ops u = Opinion.final false

/-- The threshold-and-auxiliary-opinion phase of
`Node::collect_and_set_new_opinion` (lines 60–69 of `fpcs.rs`):
`number_of_queries = k.min(|neighborhood|)`, `threshold` is the `u128`
product divided by `u32::max_value() = 2^32 - 1`, and each tally entry is
mapped to `likes > threshold`. -/
def threshold_and_aux (k nb_len random_number : ℕ)
    (eta : List (TxId × ℕ)) : List (TxId × Bool) :=
  let number_of_queries := min k nb_len
  let threshold := (random_number * number_of_queries) / (2 ^ 32 - 1)
  eta.map (fun p => (p.1, decide (p.2 > threshold)))

/-- The index computation of `Neighborhood::sample`
(`aux_types.rs` line 90): the `u128` product of the 64-bit draw and the
neighborhood size, divided by `u64::max_value() = 2^64 - 1`. -/
def sample_index (r neighborhood_size : ℕ) : ℕ :=
  (r * neighborhood_size) / (2 ^ 64 - 1)

/-- The Rust panics reachable inside `Database::generate_new`. -/
inductive PanicKind where
  | notEnoughHonest : PanicKind
  | indexOutOfBounds : PanicKind
  | divByZero : PanicKind
  deriving DecidableEq, Repr

/-- Source `LikeDistributions`. -/
inductive LikeDistributions where
  | equal : LikeDistributions
  | concentrated : ℕ → LikeDistributions
  deriving DecidableEq, Repr

/-- Source `TxGraphType`. -/
inductive TxGraphType where
  | complete : TxGraphType
  | star : TxGraphType
  deriving DecidableEq, Repr

/-- Helper for `generate_complete_conflict_graph`: builds, for each
transaction of `after` in turn, the conflict entry holding every other
transaction (`before ++ after` with the element itself removed at its
position, exactly as Rust's `clone` + `remove(i)`). -/
def complete_graph_aux (before : List TxId) :
    List TxId → List (TxId × List TxId)
  | [] => []
  | t :: after =>
    (t, before ++ after) :: complete_graph_aux (before ++ [t]) after

/-- Source `generate_complete_conflict_graph`: every transaction conflicts
with every other.  (The random generation of the ids themselves is
abstracted: the function takes the generated id list as input.) -/
def generate_complete_conflict_graph (txs : List TxId) :
    List (TxId × List TxId) :=
  complete_graph_aux [] txs

/-- Source `generate_star_conflict_graph`: the first id is the center,
conflicting with every leaf; each leaf conflicts with the center only.
With zero transactions the Rust code panics on `tx_id_set[0]`
(index out of bounds). -/
def generate_star_conflict_graph (txs : List TxId) :
    Except PanicKind (List (TxId × List TxId)) :=
  match txs with
  | [] => Except.error PanicKind.indexOutOfBounds
  | center :: leaves =>
    Except.ok ((center, leaves) :: leaves.map (fun l => (l, [center])))

/-- The `match tx_graph_type` dispatch inside `Database::generate_new`. -/
def generate_conflict_graph (g : TxGraphType) (txs : List TxId) :
    Except PanicKind (List (TxId × List TxId)) :=
  match g with
  | TxGraphType.complete => Except.ok (generate_complete_conflict_graph txs)
  | TxGraphType.star => generate_star_conflict_graph txs

/-- The conflict-set component of a vision built from an association list
(the `Conflicts` entries of the source's `BTreeMap`); unknown ids yield the
empty set (the algorithms under study only query known ids). -/
def conflicts_of (vision : List (TxId × List TxId)) (t : TxId) : List TxId :=
  match vision.find? (fun p => p.1 == t) with
  | some p => p.2
  | Option.none => []

/-- The fill loop of `Database::initialize_opinions` for one honest node:
walks the still-`None` transactions; each becomes `Pending(true, 0)` and is
pushed onto `liked_set` when its conflict set misses `liked_set`, else
`Pending(false, 0)`.  Returns the rewritten opinions with the final
`liked_set`. -/
def fill_loop (conflicts : TxId → List TxId) :
    List TxId → (TxId → Opinion) → List TxId → (TxId → Opinion) × List TxId
  | [], ops, liked => (ops, liked)
  | txid :: rest, ops, liked =>
    if intersects (conflicts txid) liked then
      fill_loop conflicts rest (set_opinion ops txid (Opinion.pending false 0)) liked
    else
      fill_loop conflicts rest (set_opinion ops txid (Opinion.pending true 0)) (liked ++ [txid])

/-- The per-node body of `Database::initialize_opinions`: compute the
currently liked set and the currently unset (`None`) transactions of the
vision, then run the fill loop. -/
def initialize_node_opinions (conflicts : TxId → List TxId)
    (keys : List TxId) (ops : TxId → Opinion) : TxId → Opinion :=
  let liked := keys.filter (fun t => (ops t).is_like)
  let unset := keys.filter (fun t => (ops t).is_none)
  (fill_loop conflicts unset ops liked).1

/-- The `liked_tx_count` computed inside `Database::generate_new`. -/
def liked_tx_count (dist : LikeDistributions) (tx_count : ℕ) : ℕ :=
  match dist with
  | LikeDistributions.equal => tx_count
  | LikeDistributions.concentrated n => n

/-- The data `Database::generate_new` computes before seeding opinions:
the shared preliminary vision and the per-transaction like counts. -/
structure GenOut where
  vision : List (TxId × List TxId)
  honest_node_count : ℕ
  likes : List ℕ
  deriving DecidableEq, Repr

/-- Source `Database::generate_new`, modelling its control flow and panic
points exactly in source order: the honest-node guard
(`malicious + faulty >= total` panics), the conflict-graph generation (the
star generator panics on zero transactions), and the like distribution,
whose `honest_node_count / liked_tx_count` panics on division by zero when
the liked transaction count is `0`.  Node creation is pure bookkeeping with
no failure path and the seeding of opinions is modelled by `seeded_ops` and
`initialize_node_opinions`.  The generated random transaction ids are
abstracted as the input list `txs` (of length `tx_count`). -/
def generate_new (total faulty malicious tx_count : ℕ) (g : TxGraphType)
    (dist : LikeDistributions) (txs : List TxId) : Except PanicKind GenOut :=
  if total ≤ malicious + faulty then Except.error PanicKind.notEnoughHonest
  else
    match generate_conflict_graph g txs with
    | Except.error e => Except.error e
    | Except.ok vision =>
      let honest := total - faulty - malicious
      let ltc := liked_tx_count dist tx_count
      if ltc = 0 then Except.error PanicKind.divByZero
      else
        let n := honest / ltc
        let rem := honest - n * ltc
        let likes := (List.range ltc).map (fun i => if i < rem then n + 1 else n)
        Except.ok { vision := vision, honest_node_count := honest, likes := likes }

/-- The `expanded_like_proportions` list of `Database::initialize_opinions`:
each transaction repeated as many times as its like count. -/
def expanded_like_proportions (txs : List TxId) (likes : List ℕ) : List TxId :=
  ((txs.zip likes).map (fun p => List.replicate p.2 p.1)).flatten

/-- The opinions of the `i`-th honest node right after the seeding zip of
`Database::initialize_opinions`: the node is paired with the `i`-th entry of
the expanded like proportions (if any) and likes exactly that transaction;
everything else is still `None`. -/
def seeded_ops (expanded : List TxId) (i : ℕ) : TxId → Opinion :=
  fun t =>
    if expanded.get? i = some t then Opinion.pending true 0 else Opinion.none

/-- A concrete conflict assignment used to instantiate theorems:
transactions `0` and `1` conflict with each other, nothing else conflicts. -/
def pair_conflicts : TxId → List TxId :=
  fun t => if t = 0 then [1] else if t = 1 then [0] else []

/-- A concrete conflict assignment: transaction `0` conflicts with `1` and
`2` (used to exercise the finalization cascade). -/
def fan_conflicts : TxId → List TxId :=
  fun t => if t = 0 then [1, 2] else []

/-- The empty conflict assignment. -/
def no_conflicts : TxId → List TxId := fun _ => []

/-- A concrete opinion assignment: every transaction is pending-liked with
streak `4 = L - 1`. -/
def all_pending_ops : TxId → Opinion := fun _ => Opinion.pending true 4

/-- The identity used as a concrete hash-key function. -/
def id_key : TxId → ℕ := fun t => t

/- ------------------------------------------------------------------ -/
/- Generic list lemmas.                                               -/
/- ------------------------------------------------------------------ -/

theorem intersects_true_iff (v1 v2 : List TxId) :
    intersects v1 v2 = true ↔ ∃ x ∈ v1, x ∈ v2 := by
  simp [intersects]

theorem intersects_false_iff (v1 v2 : List TxId) :
    intersects v1 v2 = false ↔ ∀ x ∈ v1, x ∉ v2 := by
  rw [← Bool.not_eq_true, intersects_true_iff]
  push_neg
  rfl

theorem mem_liked_set_of (aux : List (TxId × Bool)) (x : TxId) :
    x ∈ liked_set_of aux ↔ (x, true) ∈ aux := by
  simp only [liked_set_of, List.mem_map, List.mem_filter]
  constructor
  · rintro ⟨p, ⟨hp, hp2⟩, rfl⟩
    cases p with
    | mk a b => cases b with
      | false => simp at hp2
      | true => exact hp
  · intro h
    exact ⟨(x, true), ⟨h, rfl⟩, rfl⟩

theorem nodup_keys_eq {α β : Type} [DecidableEq α] :
    ∀ (l : List (α × β)) (a : α) (b c : β),
      (l.map Prod.fst).Nodup → (a, b) ∈ l → (a, c) ∈ l → b = c := by
  intro l
  induction l with
  | nil => intro a b c _ h; simp at h
  | cons p rest ih =>
    intro a b c hnd hb hc
    simp only [List.map_cons, List.nodup_cons, List.mem_map] at hnd
    rcases List.mem_cons.mp hb with hb | hb
    · rcases List.mem_cons.mp hc with hc | hc
      · rw [← hb] at hc; exact (Prod.mk.injEq _ _ _ _ ▸ hc).2.symm ▸ rfl
      · exfalso
        exact hnd.1 ⟨(a, c), hc, by rw [← hb]⟩
    · rcases List.mem_cons.mp hc with hc | hc
      · exfalso
        exact hnd.1 ⟨(a, b), hb, by rw [← hc]⟩
      · exact ih a b c hnd.2 hb hc

/- ------------------------------------------------------------------ -/
/- The sorting passes are permutations.                               -/
/- ------------------------------------------------------------------ -/

theorem insert_desc_perm (key : TxId → ℕ) (x : TxId × Bool) :
    ∀ l : List (TxId × Bool), (insert_desc key x l).Perm (x :: l) := by
  intro l
  induction l with
  | nil => exact List.Perm.refl _
  | cons y ys ih =>
    unfold insert_desc
    by_cases h : key y.1 ≤ key x.1
    · simp [h]
    · simp only [if_neg h]
      exact (ih.cons y).trans (List.Perm.swap x y ys)

theorem sort_desc_perm (key : TxId → ℕ) :
    ∀ l : List (TxId × Bool), (sort_desc key l).Perm l := by
  intro l
  induction l with
  | nil => exact List.Perm.refl _
  | cons x xs ih =>
    exact (insert_desc_perm key x (sort_desc key xs)).trans (ih.cons x)

theorem insert_asc_perm (key : TxId → ℕ) (x : TxId × Bool) :
    ∀ l : List (TxId × Bool), (insert_asc key x l).Perm (x :: l) := by
  intro l
  induction l with
  | nil => exact List.Perm.refl _
  | cons y ys ih =>
    unfold insert_asc
    by_cases h : key x.1 ≤ key y.1
    · simp [h]
    · simp only [if_neg h]
      exact (ih.cons y).trans (List.Perm.swap x y ys)

theorem sort_asc_perm (key : TxId → ℕ) :
    ∀ l : List (TxId × Bool), (sort_asc key l).Perm l := by
  intro l
  induction l with
  | nil => exact List.Perm.refl _
  | cons x xs ih =>
    exact (insert_asc_perm key x (sort_asc key xs)).trans (ih.cons x)

/- ------------------------------------------------------------------ -/
/- ELIM loop step equations and invariants.                           -/
/- ------------------------------------------------------------------ -/

theorem elim_loop_cons_true_hit (c : TxId → List TxId) (txid : TxId)
    (rest : List (TxId × Bool)) (liked : List TxId)
    (h : intersects (c txid) liked = true) :
    elim_loop c ((txid, true) :: rest) liked =
      ((txid, false) ::
        (elim_loop c rest (liked.filter (fun x => x ≠ txid))).1,
       (elim_loop c rest (liked.filter (fun x => x ≠ txid))).2) := by
  simp [elim_loop, h]

theorem elim_loop_cons_true_miss (c : TxId → List TxId) (txid : TxId)
    (rest : List (TxId × Bool)) (liked : List TxId)
    (h : intersects (c txid) liked = false) :
    elim_loop c ((txid, true) :: rest) liked =
      ((txid, true) :: (elim_loop c rest liked).1,
       (elim_loop c rest liked).2) := by
  simp [elim_loop, h]

theorem elim_loop_cons_false (c : TxId → List TxId) (txid : TxId)
    (rest : List (TxId × Bool)) (liked : List TxId) :
    elim_loop c ((txid, false) :: rest) liked =
      ((txid, false) :: (elim_loop c rest liked).1,
       (elim_loop c rest liked).2) := by
  simp [elim_loop]

theorem elim_loop_liked_subset (c : TxId → List TxId) :
    ∀ (l : List (TxId × Bool)) (liked : List TxId),
      ∀ u ∈ (elim_loop c l liked).2, u ∈ liked := by
  intro l
  induction l with
  | nil => intro liked u hu; simpa [elim_loop] using hu
  | cons p rest ih =>
    intro liked u hu
    obtain ⟨txid, opinion⟩ := p
    cases opinion with
    | true =>
      by_cases hint : intersects (c txid) liked
      · rw [elim_loop_cons_true_hit c txid rest liked hint] at hu
        have := ih (liked.filter (fun x => x ≠ txid)) u hu
        exact (List.mem_filter.mp this).1
      · rw [elim_loop_cons_true_miss c txid rest liked
          (Bool.eq_false_iff.mpr hint)] at hu
        exact ih liked u hu
    | false =>
      rw [elim_loop_cons_false c txid rest liked] at hu
      exact ih liked u hu

theorem elim_loop_out_of_keys (c : TxId → List TxId) :
    ∀ (l : List (TxId × Bool)) (liked : List TxId) (u : TxId),
      u ∈ liked → u ∉ l.map Prod.fst → u ∈ (elim_loop c l liked).2 := by
  intro l
  induction l with
  | nil => intro liked u hu _; simpa [elim_loop] using hu
  | cons p rest ih =>
    intro liked u hu hkeys
    obtain ⟨txid, opinion⟩ := p
    simp only [List.map_cons, List.mem_cons] at hkeys
    push_neg at hkeys
    cases opinion with
    | true =>
      by_cases hint : intersects (c txid) liked
      · rw [elim_loop_cons_true_hit c txid rest liked hint]
        refine ih _ u ?_ hkeys.2
        exact List.mem_filter.mpr ⟨hu, by simpa using hkeys.1⟩
      · rw [elim_loop_cons_true_miss c txid rest liked
          (Bool.eq_false_iff.mpr hint)]
        exact ih liked u hu hkeys.2
    | false =>
      rw [elim_loop_cons_false c txid rest liked]
      exact ih liked u hu hkeys.2

theorem elim_loop_final_liked (c : TxId → List TxId) :
    ∀ (l : List (TxId × Bool)) (liked : List TxId) (t : TxId),
      (t, true) ∈ (elim_loop c l liked).1 →
      (∀ x, (x, true) ∈ l → x ∈ liked) →
      (l.map Prod.fst).Nodup →
      t ∈ (elim_loop c l liked).2 := by
  intro l
  induction l with
  | nil => intro liked t ht _ _; simp [elim_loop] at ht
  | cons p rest ih =>
    intro liked t ht hmem hnd
    obtain ⟨txid, opinion⟩ := p
    simp only [List.map_cons, List.nodup_cons, List.mem_map] at hnd
    cases opinion with
    | true =>
      by_cases hint : intersects (c txid) liked
      · rw [elim_loop_cons_true_hit c txid rest liked hint] at ht ⊢
        rcases List.mem_cons.mp ht with h | h
        · exact absurd (Prod.mk.injEq _ _ _ _ ▸ h).2 (by simp)
        · refine ih _ t h ?_ hnd.2
          intro x hx
          refine List.mem_filter.mpr ⟨hmem x (List.mem_cons_of_mem _ hx), ?_⟩
          simp only [ne_eq, decide_eq_true_eq]
          intro hxt
          exact hnd.1 ⟨(x, true), hx, by rw [hxt]⟩
      · rw [elim_loop_cons_true_miss c txid rest liked
          (Bool.eq_false_iff.mpr hint)] at ht ⊢
        rcases List.mem_cons.mp ht with h | h
        · have : t = txid := (Prod.mk.injEq _ _ _ _ ▸ h).1
          subst this
          refine elim_loop_out_of_keys c rest liked t (hmem t (by simp)) ?_
          intro hc
          rcases List.mem_map.mp hc with ⟨q, hq, hq1⟩
          exact hnd.1 ⟨q, hq, hq1⟩
        · refine ih liked t h ?_ hnd.2
          intro x hx
          exact hmem x (List.mem_cons_of_mem _ hx)
    | false =>
      rw [elim_loop_cons_false c txid rest liked] at ht ⊢
      rcases List.mem_cons.mp ht with h | h
      · exact absurd (Prod.mk.injEq _ _ _ _ ▸ h).2 (by simp)
      · refine ih liked t h ?_ hnd.2
        intro x hx
        exact hmem x (List.mem_cons_of_mem _ hx)

theorem elim_loop_survivor_indep (c : TxId → List TxId) :
    ∀ (l : List (TxId × Bool)) (liked : List TxId) (t : TxId),
      (t, true) ∈ (elim_loop c l liked).1 →
      ∀ u ∈ (elim_loop c l liked).2, u ∉ c t := by
  intro l
  induction l with
  | nil => intro liked t ht; simp [elim_loop] at ht
  | cons p rest ih =>
    intro liked t ht u hu
    obtain ⟨txid, opinion⟩ := p
    cases opinion with
    | true =>
      by_cases hint : intersects (c txid) liked
      · rw [elim_loop_cons_true_hit c txid rest liked hint] at ht hu
        rcases List.mem_cons.mp ht with h | h
        · exact absurd (Prod.mk.injEq _ _ _ _ ▸ h).2 (by simp)
        · exact ih _ t h u hu
      · rw [elim_loop_cons_true_miss c txid rest liked
          (Bool.eq_false_iff.mpr hint)] at ht hu
        rcases List.mem_cons.mp ht with h | h
        · have : t = txid := (Prod.mk.injEq _ _ _ _ ▸ h).1
          subst this
          have husub : u ∈ liked := elim_loop_liked_subset c rest liked u hu
          intro hc
          exact absurd ((intersects_false_iff _ _).mp
            (Bool.eq_false_iff.mpr hint) u hc) (by simp [husub])
        · exact ih liked t h u hu
    | false =>
      rw [elim_loop_cons_false c txid rest liked] at ht hu
      rcases List.mem_cons.mp ht with h | h
      · exact absurd (Prod.mk.injEq _ _ _ _ ▸ h).2 (by simp)
      · exact ih liked t h u hu

theorem elim_loop_noop (c : TxId → List TxId) :
    ∀ (l : List (TxId × Bool)) (liked : List TxId),
      (∀ t u, (t, true) ∈ l → u ∈ liked → u ∉ c t) →
      elim_loop c l liked = (l, liked) := by
  intro l
  induction l with
  | nil => intro liked _; simp [elim_loop]
  | cons p rest ih =>
    intro liked hind
    obtain ⟨txid, opinion⟩ := p
    have hrest : elim_loop c rest liked = (rest, liked) :=
      ih liked (fun t u ht hu => hind t u (List.mem_cons_of_mem _ ht) hu)
    cases opinion with
    | true =>
      have hint : intersects (c txid) liked = false := by
        rw [intersects_false_iff]
        intro x hx hxl
        exact hind txid x (by simp) hxl hx
      rw [elim_loop_cons_true_miss c txid rest liked hint, hrest]
    | false =>
      rw [elim_loop_cons_false c txid rest liked, hrest]

/- ------------------------------------------------------------------ -/
/- COMP loop step equations and invariants.                           -/
/- ------------------------------------------------------------------ -/

theorem comp_loop_cons_true (c : TxId → List TxId) (txid : TxId)
    (rest : List (TxId × Bool)) (liked : List TxId) :
    comp_loop c ((txid, true) :: rest) liked =
      ((txid, true) :: (comp_loop c rest liked).1,
       (comp_loop c rest liked).2) := by
  simp [comp_loop]

theorem comp_loop_cons_false_hit (c : TxId → List TxId) (txid : TxId)
    (rest : List (TxId × Bool)) (liked : List TxId)
    (h : intersects (c txid) liked = true) :
    comp_loop c ((txid, false) :: rest) liked =
      ((txid, false) :: (comp_loop c rest liked).1,
       (comp_loop c rest liked).2) := by
  simp [comp_loop, h]

theorem comp_loop_cons_false_miss (c : TxId → List TxId) (txid : TxId)
    (rest : List (TxId × Bool)) (liked : List TxId)
    (h : intersects (c txid) liked = false) :
    comp_loop c ((txid, false) :: rest) liked =
      ((txid, true) :: (comp_loop c rest (liked ++ [txid])).1,
       (comp_loop c rest (liked ++ [txid])).2) := by
  simp [comp_loop, h]

theorem comp_loop_liked_mono (c : TxId → List TxId) :
    ∀ (l : List (TxId × Bool)) (liked : List TxId),
      ∀ u ∈ liked, u ∈ (comp_loop c l liked).2 := by
  intro l
  induction l with
  | nil => intro liked u hu; simpa [comp_loop] using hu
  | cons p rest ih =>
    intro liked u hu
    obtain ⟨txid, opinion⟩ := p
    cases opinion with
    | true =>
      rw [comp_loop_cons_true]
      exact ih liked u hu
    | false =>
      by_cases hint : intersects (c txid) liked
      · rw [comp_loop_cons_false_hit c txid rest liked hint]
        exact ih liked u hu
      · rw [comp_loop_cons_false_miss c txid rest liked
          (Bool.eq_false_iff.mpr hint)]
        exact ih _ u (List.mem_append_left _ hu)

theorem comp_loop_liked_src (c : TxId → List TxId) :
    ∀ (l : List (TxId × Bool)) (liked : List TxId),
      ∀ u ∈ (comp_loop c l liked).2,
        u ∈ liked ∨ (u, true) ∈ (comp_loop c l liked).1 := by
  intro l
  induction l with
  | nil => intro liked u hu; exact Or.inl (by simpa [comp_loop] using hu)
  | cons p rest ih =>
    intro liked u hu
    obtain ⟨txid, opinion⟩ := p
    cases opinion with
    | true =>
      rw [comp_loop_cons_true] at hu ⊢
      rcases ih liked u hu with h | h
      · exact Or.inl h
      · exact Or.inr (List.mem_cons_of_mem _ h)
    | false =>
      by_cases hint : intersects (c txid) liked
      · rw [comp_loop_cons_false_hit c txid rest liked hint] at hu ⊢
        rcases ih liked u hu with h | h
        · exact Or.inl h
        · exact Or.inr (List.mem_cons_of_mem _ h)
      · rw [comp_loop_cons_false_miss c txid rest liked
          (Bool.eq_false_iff.mpr hint)] at hu ⊢
        rcases ih _ u hu with h | h
        · rcases List.mem_append.mp h with h' | h'
          · exact Or.inl h'
          · simp only [List.mem_singleton] at h'
            exact Or.inr (by rw [h']; exact List.mem_cons_self _ _)
        · exact Or.inr (List.mem_cons_of_mem _ h)

theorem comp_loop_true_preserved (c : TxId → List TxId) :
    ∀ (l : List (TxId × Bool)) (liked : List TxId) (t : TxId),
      (t, true) ∈ l → (t, true) ∈ (comp_loop c l liked).1 := by
  intro l
  induction l with
  | nil => intro liked t ht; simp at ht
  | cons p rest ih =>
    intro liked t ht
    obtain ⟨txid, opinion⟩ := p
    cases opinion with
    | true =>
      rw [comp_loop_cons_true]
      rcases List.mem_cons.mp ht with h | h
      · exact h ▸ List.mem_cons_self _ _
      · exact List.mem_cons_of_mem _ (ih liked t h)
    | false =>
      have ht' : (t, true) ∈ rest := by
        rcases List.mem_cons.mp ht with h | h
        · exact absurd (Prod.mk.injEq _ _ _ _ ▸ h).2 (by simp)
        · exact h
      by_cases hint : intersects (c txid) liked
      · rw [comp_loop_cons_false_hit c txid rest liked hint]
        exact List.mem_cons_of_mem _ (ih liked t ht')
      · rw [comp_loop_cons_false_miss c txid rest liked
          (Bool.eq_false_iff.mpr hint)]
        exact List.mem_cons_of_mem _ (ih _ t ht')

theorem comp_loop_false_conflict (c : TxId → List TxId) :
    ∀ (l : List (TxId × Bool)) (liked : List TxId) (t : TxId),
      (t, false) ∈ (comp_loop c l liked).1 →
      ∃ u ∈ (comp_loop c l liked).2, u ∈ c t := by
  intro l
  induction l with
  | nil => intro liked t ht; simp [comp_loop] at ht
  | cons p rest ih =>
    intro liked t ht
    obtain ⟨txid, opinion⟩ := p
    cases opinion with
    | true =>
      rw [comp_loop_cons_true] at ht ⊢
      rcases List.mem_cons.mp ht with h | h
      · exact absurd (Prod.mk.injEq _ _ _ _ ▸ h).2 (by simp)
      · exact ih liked t h
    | false =>
      by_cases hint : intersects (c txid) liked
      · rw [comp_loop_cons_false_hit c txid rest liked hint] at ht ⊢
        rcases List.mem_cons.mp ht with h | h
        · have : t = txid := (Prod.mk.injEq _ _ _ _ ▸ h).1
          subst this
          rcases (intersects_true_iff _ _).mp hint with ⟨x, hx, hxl⟩
          exact ⟨x, comp_loop_liked_mono c rest liked x hxl, hx⟩
        · exact ih liked t h
      · rw [comp_loop_cons_false_miss c txid rest liked
          (Bool.eq_false_iff.mpr hint)] at ht ⊢
        rcases List.mem_cons.mp ht with h | h
        · exact absurd (Prod.mk.injEq _ _ _ _ ▸ h).2 (by simp)
        · exact ih _ t h

theorem comp_loop_true_in_liked (c : TxId → List TxId) :
    ∀ (l : List (TxId × Bool)) (liked : List TxId) (t : TxId),
      (∀ x, (x, true) ∈ l → x ∈ liked) →
      (t, true) ∈ (comp_loop c l liked).1 →
      t ∈ (comp_loop c l liked).2 := by
  intro l
  induction l with
  | nil => intro liked t _ ht; simp [comp_loop] at ht
  | cons p rest ih =>
    intro liked t hmem ht
    obtain ⟨txid, opinion⟩ := p
    cases opinion with
    | true =>
      rw [comp_loop_cons_true] at ht ⊢
      rcases List.mem_cons.mp ht with h | h
      · have : t = txid := (Prod.mk.injEq _ _ _ _ ▸ h).1
        subst this
        exact comp_loop_liked_mono c rest liked t (hmem t (by simp))
      · exact ih liked t (fun x hx => hmem x (List.mem_cons_of_mem _ hx)) h
    | false =>
      by_cases hint : intersects (c txid) liked
      · rw [comp_loop_cons_false_hit c txid rest liked hint] at ht ⊢
        rcases List.mem_cons.mp ht with h | h
        · exact absurd (Prod.mk.injEq _ _ _ _ ▸ h).2 (by simp)
        · exact ih liked t (fun x hx => hmem x (List.mem_cons_of_mem _ hx)) h
      · rw [comp_loop_cons_false_miss c txid rest liked
          (Bool.eq_false_iff.mpr hint)] at ht ⊢
        rcases List.mem_cons.mp ht with h | h
        · have : t = txid := (Prod.mk.injEq _ _ _ _ ▸ h).1
          subst this
          exact comp_loop_liked_mono c rest _ t
            (List.mem_append_right _ (List.mem_singleton.mpr rfl))
        · refine ih _ t ?_ h
          intro x hx
          exact List.mem_append_left _ (hmem x (List.mem_cons_of_mem _ hx))

theorem comp_loop_liked_indep (c : TxId → List TxId)
    (hsymm : ∀ t u, u ∈ c t → t ∈ c u) (hirr : ∀ t, t ∉ c t) :
    ∀ (l : List (TxId × Bool)) (liked : List TxId),
      (∀ u ∈ liked, ∀ v ∈ liked, v ∉ c u) →
      ∀ u ∈ (comp_loop c l liked).2, ∀ v ∈ (comp_loop c l liked).2,
        v ∉ c u := by
  intro l
  induction l with
  | nil =>
    intro liked hind u hu v hv
    simp only [comp_loop] at hu hv
    exact hind u hu v hv
  | cons p rest ih =>
    intro liked hind u hu v hv
    obtain ⟨txid, opinion⟩ := p
    cases opinion with
    | true =>
      rw [comp_loop_cons_true] at hu hv
      exact ih liked hind u hu v hv
    | false =>
      by_cases hint : intersects (c txid) liked
      · rw [comp_loop_cons_false_hit c txid rest liked hint] at hu hv
        exact ih liked hind u hu v hv
      · rw [comp_loop_cons_false_miss c txid rest liked
          (Bool.eq_false_iff.mpr hint)] at hu hv
        refine ih (liked ++ [txid]) ?_ u hu v hv
        have hmiss : ∀ x ∈ c txid, x ∉ liked :=
          (intersects_false_iff _ _).mp (Bool.eq_false_iff.mpr hint)
        intro a ha b hb
        rcases List.mem_append.mp ha with ha' | ha' <;>
          rcases List.mem_append.mp hb with hb' | hb'
        · exact hind a ha' b hb'
        · simp only [List.mem_singleton] at hb'
          subst hb'
          intro hbc
          exact hmiss a (hsymm a b hbc) ha'
        · simp only [List.mem_singleton] at ha'
          subst ha'
          intro hbc
          exact hmiss b hbc hb'
        · simp only [List.mem_singleton] at ha' hb'
          subst ha'; subst hb'
          exact hirr _

/- ------------------------------------------------------------------ -/
/- Finalization state machine: cascade and monotonicity.              -/
/- ------------------------------------------------------------------ -/

theorem cascade_finalize_apply (l : List TxId) :
    ∀ (ops : TxId → Opinion) (x : TxId),
      cascade_finalize ops l x =
        if x ∈ l then Opinion.final false else ops x := by
  induction l with
  | nil => intro ops x; simp [cascade_finalize]
  | cons h t ih =>
    intro ops x
    show cascade_finalize (set_opinion ops h (Opinion.final false)) t x = _
    rw [ih]
    by_cases hxt : x ∈ t
    · simp [hxt]
    · by_cases hxh : x = h
      · simp [hxt, hxh, set_opinion]
      · simp [hxt, hxh, set_opinion, List.mem_cons]

theorem update_one_eq_finalize (c : TxId → List TxId) (ops : TxId → Opinion)
    (id : TxId) (nb a : Bool) (b : ℕ)
    (hop : ops id = Opinion.pending a b)
    (hc : (a && nb && decide (L - 1 ≤ b)) = true) :
    update_one c ops (id, nb) =
      cascade_finalize (set_opinion ops id (Opinion.final true)) (c id) := by
  show update_one_body c ops id nb (ops id) = _
  rw [hop]
  show (if (a && nb && decide (L - 1 ≤ b)) = true then _ else _) = _
  rw [if_pos hc]

theorem update_one_eq_agree (c : TxId → List TxId) (ops : TxId → Opinion)
    (id : TxId) (nb a : Bool) (b : ℕ)
    (hop : ops id = Opinion.pending a b)
    (hc : (a && nb && decide (L - 1 ≤ b)) = false)
    (hagree : a = nb) :
    update_one c ops (id, nb) =
      set_opinion ops id (Opinion.pending a (b + 1)) := by
  show update_one_body c ops id nb (ops id) = _
  rw [hop]
  show (if (a && nb && decide (L - 1 ≤ b)) = true then _ else _) = _
  rw [if_neg (by rw [hc]; exact Bool.false_ne_true), if_pos (by simp [hagree])]

theorem update_one_eq_disagree (c : TxId → List TxId) (ops : TxId → Opinion)
    (id : TxId) (nb a : Bool) (b : ℕ)
    (hop : ops id = Opinion.pending a b)
    (hagree : ¬ a = nb) :
    update_one c ops (id, nb) =
      set_opinion ops id (Opinion.pending nb 0) := by
  have hc : (a && nb && decide (L - 1 ≤ b)) = false := by
    cases a <;> cases nb <;> simp_all
  show update_one_body c ops id nb (ops id) = _
  rw [hop]
  show (if (a && nb && decide (L - 1 ≤ b)) = true then _ else _) = _
  rw [if_neg (by rw [hc]; exact Bool.false_ne_true),
    if_neg (by simp [hagree])]

theorem update_one_eq_skip (c : TxId → List TxId) (ops : TxId → Opinion)
    (id : TxId) (nb : Bool)
    (hop : ∀ a b, ops id ≠ Opinion.pending a b) :
    update_one c ops (id, nb) = ops := by
  show update_one_body c ops id nb (ops id) = _
  cases h : ops id with
  | none => rfl
  | final l => rfl
  | pending a b => exact absurd h (hop a b)

theorem update_one_finalize_apply (c : TxId → List TxId)
    (ops : TxId → Opinion) (id : TxId) (nb a : Bool) (b : ℕ)
    (hop : ops id = Opinion.pending a b)
    (hc : (a && nb && decide (L - 1 ≤ b)) = true) (x : TxId) :
    update_one c ops (id, nb) x =
      if x ∈ c id then Opinion.final false
      else if x = id then Opinion.final true
      else ops x := by
  rw [update_one_eq_finalize c ops id nb a b hop hc, cascade_finalize_apply]
  by_cases hx : x ∈ c id
  · simp [hx]
  · simp [hx, set_opinion]

theorem update_one_mono_indep (c : TxId → List TxId)
    (hsymm : ∀ t u, u ∈ c t → t ∈ c u)
    (ops : TxId → Opinion) (p : TxId × Bool)
    (hJ : FinalIndep c ops) :
    (∀ t v, ops t = Opinion.final v → update_one c ops p t = Opinion.final v)
    ∧ FinalIndep c (update_one c ops p) := by
  obtain ⟨id, nb⟩ := p
  cases hop : ops id with
  | none =>
    rw [update_one_eq_skip c ops id nb (by simp [hop])]
    exact ⟨fun t v h => h, hJ⟩
  | final l =>
    rw [update_one_eq_skip c ops id nb (by simp [hop])]
    exact ⟨fun t v h => h, hJ⟩
  | pending a b =>
    by_cases hc : (a && nb && decide (L - 1 ≤ b)) = true
    · have happ := update_one_finalize_apply c ops id nb a b hop hc
      constructor
      · intro t v ht
        have htid : t ≠ id := by
          intro h; rw [h, hop] at ht; exact Opinion.noConfusion ht
        rw [happ t]
        by_cases htc : t ∈ c id
        · have hv : v = false := by
            by_contra hv
            have hv' : v = true := eq_true_of_ne_false hv
            rw [hv'] at ht
            have := hJ t ht id (hsymm id t htc)
            rw [hop] at this
            exact Opinion.noConfusion this
          simp [htc, hv]
        · simp [htc, htid, ht]
      · intro t ht u hu
        rw [happ t] at ht
        rw [happ u]
        by_cases htc : t ∈ c id
        · rw [if_pos htc] at ht; simp at ht
        · rw [if_neg htc] at ht
          by_cases htid : t = id
          · subst htid
            have huc : u ∈ c t := hu
            simp [huc]
          · rw [if_neg htid] at ht
            have hops := hJ t ht u hu
            have huid : u ≠ id := by
              intro h; rw [h, hop] at hops; exact Opinion.noConfusion hops
            by_cases huc : u ∈ c id
            · simp [huc]
            · simp [huc, huid, hops]
    · have hc' : (a && nb && decide (L - 1 ≤ b)) = false :=
        Bool.eq_false_iff.mpr hc
      have key : ∃ o, update_one c ops (id, nb) = set_opinion ops id o ∧
          ∀ l, o ≠ Opinion.final l := by
        by_cases hagree : a = nb
        · exact ⟨Opinion.pending a (b + 1),
            update_one_eq_agree c ops id nb a b hop hc' hagree,
            fun l h => Opinion.noConfusion h⟩
        · exact ⟨Opinion.pending nb 0,
            update_one_eq_disagree c ops id nb a b hop hagree,
            fun l h => Opinion.noConfusion h⟩
      obtain ⟨o, heq, hno⟩ := key
      rw [heq]
      constructor
      · intro t v ht
        have htid : t ≠ id := by
          intro h; rw [h, hop] at ht; exact Opinion.noConfusion ht
        simp [set_opinion, htid, ht]
      · intro t ht u hu
        have htid : t ≠ id := by
          intro h
          rw [set_opinion, if_pos h] at ht
          exact hno true ht
        rw [set_opinion, if_neg htid] at ht
        have hops := hJ t ht u hu
        have huid : u ≠ id := by
          intro h; rw [h, hop] at hops; exact Opinion.noConfusion hops
        simp [set_opinion, huid, hops]

theorem update_opinions_mono_indep (c : TxId → List TxId)
    (hsymm : ∀ t u, u ∈ c t → t ∈ c u) :
    ∀ (news : List (TxId × Bool)) (ops : TxId → Opinion),
      FinalIndep c ops →
      (∀ t v, ops t = Opinion.final v →
        update_opinions c ops news t = Opinion.final v)
      ∧ FinalIndep c (update_opinions c ops news) := by
  intro news
  induction news with
  | nil => intro ops hJ; exact ⟨fun t v h => h, hJ⟩
  | cons p rest ih =>
    intro ops hJ
    have hstep := update_one_mono_indep c hsymm ops p hJ
    have hrec := ih (update_one c ops p) hstep.2
    constructor
    · intro t v ht
      exact hrec.1 t v (hstep.1 t v ht)
    · exact hrec.2

theorem run_rounds_mono_indep (c : TxId → List TxId)
    (hsymm : ∀ t u, u ∈ c t → t ∈ c u) :
    ∀ (rounds : List (List (TxId × Bool))) (ops : TxId → Opinion),
      FinalIndep c ops →
      (∀ t v, ops t = Opinion.final v →
        run_rounds c ops rounds t = Opinion.final v)
      ∧ FinalIndep c (run_rounds c ops rounds) := by
  intro rounds
  induction rounds with
  | nil => intro ops hJ; exact ⟨fun t v h => h, hJ⟩
  | cons news rest ih =>
    intro ops hJ
    have hstep := update_opinions_mono_indep c hsymm news ops hJ
    have hrec := ih (update_opinions c ops news) hstep.2
    constructor
    · intro t v ht
      exact hrec.1 t v (hstep.1 t v ht)
    · exact hrec.2

/- ------------------------------------------------------------------ -/
/- Fill loop of initialize_opinions.                                  -/
/- ------------------------------------------------------------------ -/

theorem fill_loop_cons_hit (c : TxId → List TxId) (txid : TxId)
    (rest : List TxId) (ops : TxId → Opinion) (liked : List TxId)
    (h : intersects (c txid) liked = true) :
    fill_loop c (txid :: rest) ops liked =
      fill_loop c rest (set_opinion ops txid (Opinion.pending false 0)) liked := by
  simp [fill_loop, h]

theorem fill_loop_cons_miss (c : TxId → List TxId) (txid : TxId)
    (rest : List TxId) (ops : TxId → Opinion) (liked : List TxId)
    (h : intersects (c txid) liked = false) :
    fill_loop c (txid :: rest) ops liked =
      fill_loop c rest (set_opinion ops txid (Opinion.pending true 0))
        (liked ++ [txid]) := by
  simp [fill_loop, h]

theorem fill_loop_frame (c : TxId → List TxId) :
    ∀ (unset : List TxId) (ops : TxId → Opinion) (liked : List TxId)
      (t : TxId), t ∉ unset → (fill_loop c unset ops liked).1 t = ops t := by
  intro unset
  induction unset with
  | nil => intro ops liked t _; rfl
  | cons txid rest ih =>
    intro ops liked t ht
    simp only [List.mem_cons] at ht
    push_neg at ht
    by_cases hint : intersects (c txid) liked
    · rw [fill_loop_cons_hit c txid rest ops liked hint]
      rw [ih _ liked t ht.2]
      simp [set_opinion, ht.1]
    · rw [fill_loop_cons_miss c txid rest ops liked
        (Bool.eq_false_iff.mpr hint)]
      rw [ih _ _ t ht.2]
      simp [set_opinion, ht.1]

theorem fill_loop_written (c : TxId → List TxId) :
    ∀ (unset : List TxId) (ops : TxId → Opinion) (liked : List TxId)
      (t : TxId), t ∈ unset →
      ∃ b, (fill_loop c unset ops liked).1 t = Opinion.pending b 0 := by
  intro unset
  induction unset with
  | nil => intro ops liked t ht; simp at ht
  | cons txid rest ih =>
    intro ops liked t ht
    by_cases htr : t ∈ rest
    · by_cases hint : intersects (c txid) liked
      · rw [fill_loop_cons_hit c txid rest ops liked hint]
        exact ih _ liked t htr
      · rw [fill_loop_cons_miss c txid rest ops liked
          (Bool.eq_false_iff.mpr hint)]
        exact ih _ _ t htr
    · have htt : t = txid := by
        rcases List.mem_cons.mp ht with h | h
        · exact h
        · exact absurd h htr
      subst htt
      by_cases hint : intersects (c t) liked
      · rw [fill_loop_cons_hit c t rest ops liked hint,
          fill_loop_frame c rest _ liked t htr]
        exact ⟨false, by simp [set_opinion]⟩
      · rw [fill_loop_cons_miss c t rest ops liked
          (Bool.eq_false_iff.mpr hint),
          fill_loop_frame c rest _ _ t htr]
        exact ⟨true, by simp [set_opinion]⟩

theorem fill_loop_liked_mono (c : TxId → List TxId) :
    ∀ (unset : List TxId) (ops : TxId → Opinion) (liked : List TxId),
      ∀ u ∈ liked, u ∈ (fill_loop c unset ops liked).2 := by
  intro unset
  induction unset with
  | nil => intro ops liked u hu; exact hu
  | cons txid rest ih =>
    intro ops liked u hu
    by_cases hint : intersects (c txid) liked
    · rw [fill_loop_cons_hit c txid rest ops liked hint]
      exact ih _ liked u hu
    · rw [fill_loop_cons_miss c txid rest ops liked
        (Bool.eq_false_iff.mpr hint)]
      exact ih _ _ u (List.mem_append_left _ hu)

theorem fill_loop_liked_indep (c : TxId → List TxId)
    (hsymm : ∀ t u, u ∈ c t → t ∈ c u) (hirr : ∀ t, t ∉ c t) :
    ∀ (unset : List TxId) (ops : TxId → Opinion) (liked : List TxId),
      (∀ u ∈ liked, ∀ v ∈ liked, v ∉ c u) →
      ∀ u ∈ (fill_loop c unset ops liked).2,
        ∀ v ∈ (fill_loop c unset ops liked).2, v ∉ c u := by
  intro unset
  induction unset with
  | nil => intro ops liked hind u hu v hv; exact hind u hu v hv
  | cons txid rest ih =>
    intro ops liked hind u hu v hv
    by_cases hint : intersects (c txid) liked
    · rw [fill_loop_cons_hit c txid rest ops liked hint] at hu hv
      exact ih _ liked hind u hu v hv
    · rw [fill_loop_cons_miss c txid rest ops liked
        (Bool.eq_false_iff.mpr hint)] at hu hv
      refine ih _ (liked ++ [txid]) ?_ u hu v hv
      have hmiss : ∀ x ∈ c txid, x ∉ liked :=
        (intersects_false_iff _ _).mp (Bool.eq_false_iff.mpr hint)
      intro a ha b hb
      rcases List.mem_append.mp ha with ha' | ha' <;>
        rcases List.mem_append.mp hb with hb' | hb'
      · exact hind a ha' b hb'
      · simp only [List.mem_singleton] at hb'
        subst hb'
        intro hbc
        exact hmiss a (hsymm a b hbc) ha'
      · simp only [List.mem_singleton] at ha'
        subst ha'
        intro hbc
        exact hmiss b hbc hb'
      · simp only [List.mem_singleton] at ha' hb'
        subst ha'; subst hb'
        exact hirr _

theorem fill_loop_final_like (c : TxId → List TxId) :
    ∀ (unset : List TxId) (ops : TxId → Opinion) (liked : List TxId)
      (t : TxId), unset.Nodup → (∀ u ∈ liked, u ∉ unset) →
      (t ∈ liked ∨ t ∈ unset) →
      ((fill_loop c unset ops liked).1 t).is_like = true →
      t ∈ (fill_loop c unset ops liked).2 := by
  intro unset
  induction unset with
  | nil =>
    intro ops liked t _ _ hsrc _
    rcases hsrc with h | h
    · exact h
    · simp at h
  | cons txid rest ih =>
    intro ops liked t hnd hdisj hsrc hlike
    simp only [List.nodup_cons] at hnd
    by_cases hint : intersects (c txid) liked
    · rw [fill_loop_cons_hit c txid rest ops liked hint] at hlike ⊢
      by_cases htt : t = txid
      · subst htt
        exfalso
        have htl : t ∉ liked := fun h => hdisj t h (by simp)
        have htr : t ∉ rest := hnd.1
        rw [fill_loop_frame c rest _ liked t htr] at hlike
        simp [set_opinion, Opinion.is_like] at hlike
      · refine ih _ liked t hnd.2
          (fun u hu => fun hur => hdisj u hu (List.mem_cons_of_mem _ hur))
          ?_ hlike
        rcases hsrc with h | h
        · exact Or.inl h
        · rcases List.mem_cons.mp h with h' | h'
          · exact absurd h' htt
          · exact Or.inr h'
    · rw [fill_loop_cons_miss c txid rest ops liked
        (Bool.eq_false_iff.mpr hint)] at hlike ⊢
      by_cases htt : t = txid
      · subst htt
        exact fill_loop_liked_mono c rest _ _ t
          (List.mem_append_right _ (List.mem_singleton.mpr rfl))
      · refine ih _ (liked ++ [txid]) t hnd.2 ?_ ?_ hlike
        · intro u hu
          rcases List.mem_append.mp hu with h | h
          · exact fun hur => hdisj u h (List.mem_cons_of_mem _ hur)
          · simp only [List.mem_singleton] at h
            subst h
            exact hnd.1
        · rcases hsrc with h | h
          · exact Or.inl (List.mem_append_left _ h)
          · rcases List.mem_cons.mp h with h' | h'
            · exact absurd h' htt
            · exact Or.inr h'

theorem initialize_node_opinions_spec (c : TxId → List TxId)
    (hsymm : ∀ t u, u ∈ c t → t ∈ c u) (hirr : ∀ t, t ∉ c t)
    (keys : List TxId) (hknd : keys.Nodup) (ops : TxId → Opinion)
    (hinit : ∀ t, ops t = Opinion.none ∨ ops t = Opinion.pending true 0)
    (hone : ∀ t u, (ops t).is_like = true → (ops u).is_like = true → t = u) :
    (∀ t ∈ keys, ∃ b,
      initialize_node_opinions c keys ops t = Opinion.pending b 0)
    ∧ (∀ t u, t ∈ keys → u ∈ keys →
        (initialize_node_opinions c keys ops t).is_like = true →
        (initialize_node_opinions c keys ops u).is_like = true →
        u ∉ c t) := by
  have hunset_nd : (keys.filter (fun t => (ops t).is_none)).Nodup :=
    hknd.filter _
  have hdisj : ∀ u ∈ keys.filter (fun t => (ops t).is_like),
      u ∉ keys.filter (fun t => (ops t).is_none) := by
    intro u hu hu'
    have h1 := (List.mem_filter.mp hu).2
    have h2 := (List.mem_filter.mp hu').2
    simp only [decide_eq_true_eq] at h1 h2
    cases h : ops u with
    | none => rw [h] at h1; simp [Opinion.is_like] at h1
    | pending a b => rw [h] at h2; simp [Opinion.is_none] at h2
    | final l => rw [h] at h2; simp [Opinion.is_none] at h2
  have hind0 : ∀ u ∈ keys.filter (fun t => (ops t).is_like),
      ∀ v ∈ keys.filter (fun t => (ops t).is_like), v ∉ c u := by
    intro u hu v hv
    have h1 := (List.mem_filter.mp hu).2
    have h2 := (List.mem_filter.mp hv).2
    simp only [decide_eq_true_eq] at h1 h2
    have : u = v := hone u v h1 h2
    subst this
    exact hirr u
  have hsrc : ∀ t ∈ keys,
      t ∈ keys.filter (fun x => (ops x).is_like)
      ∨ t ∈ keys.filter (fun x => (ops x).is_none) := by
    intro t ht
    rcases hinit t with h | h
    · exact Or.inr (List.mem_filter.mpr ⟨ht, by simp [h, Opinion.is_none]⟩)
    · exact Or.inl (List.mem_filter.mpr ⟨ht, by simp [h, Opinion.is_like]⟩)
  constructor
  · intro t ht
    rcases hinit t with h | h
    · exact fill_loop_written c _ ops _ t
        (List.mem_filter.mpr ⟨ht, by simp [h, Opinion.is_none]⟩)
    · have hnm : t ∉ keys.filter (fun x => (ops x).is_none) := by
        intro hmem
        have := (List.mem_filter.mp hmem).2
        simp only [decide_eq_true_eq] at this
        rw [h] at this
        simp [Opinion.is_none] at this
      refine ⟨true, ?_⟩
      show (fill_loop c _ ops _).1 t = _
      rw [fill_loop_frame c _ ops _ t hnm, h]
  · intro t u ht hu hlt hlu
    have htL : t ∈ (fill_loop c (keys.filter (fun x => (ops x).is_none))
        ops (keys.filter (fun x => (ops x).is_like))).2 :=
      fill_loop_final_like c _ ops _ t hunset_nd hdisj (hsrc t ht) hlt
    have huL : u ∈ (fill_loop c (keys.filter (fun x => (ops x).is_none))
        ops (keys.filter (fun x => (ops x).is_like))).2 :=
      fill_loop_final_like c _ ops _ u hunset_nd hdisj (hsrc u hu) hlu
    exact fill_loop_liked_indep c hsymm hirr _ ops _ hind0 t htL u huL

theorem seeded_ops_init (expanded : List TxId) (i : ℕ) :
    ∀ t, seeded_ops expanded i t = Opinion.none
      ∨ seeded_ops expanded i t = Opinion.pending true 0 := by
  intro t
  unfold seeded_ops
  by_cases h : expanded.get? i = some t
  · exact Or.inr (by rw [if_pos h])
  · exact Or.inl (by rw [if_neg h])

theorem seeded_ops_one (expanded : List TxId) (i : ℕ) :
    ∀ t u, (seeded_ops expanded i t).is_like = true →
      (seeded_ops expanded i u).is_like = true → t = u := by
  intro t u ht hu
  unfold seeded_ops at ht hu
  by_cases h1 : expanded.get? i = some t
  · by_cases h2 : expanded.get? i = some u
    · rw [h1] at h2
      exact Option.some.inj h2
    · rw [if_neg h2] at hu
      simp [Opinion.is_like] at hu
  · rw [if_neg h1] at ht
    simp [Opinion.is_like] at ht

/- ------------------------------------------------------------------ -/
/- Conflict graph generators: characterization, symmetry,             -/
/- irreflexivity.                                                     -/
/- ------------------------------------------------------------------ -/

theorem conflicts_of_cons (a : TxId) (cs : List TxId)
    (rest : List (TxId × List TxId)) (t : TxId) :
    conflicts_of ((a, cs) :: rest) t =
      if a = t then cs else conflicts_of rest t := by
  by_cases h : a = t
  · simp [conflicts_of, List.find?, h]
  · simp only [conflicts_of, List.find?]
    have : ((a, cs).1 == t) = false := by
      simp only [beq_eq_false_iff_ne, ne_eq]
      exact h
    rw [this]
    simp [h]

theorem complete_graph_aux_mem (u t : TxId) :
    ∀ (after before : List TxId), (before ++ after).Nodup →
      (u ∈ conflicts_of (complete_graph_aux before after) t ↔
        (t ∈ after ∧ u ∈ before ++ after ∧ u ≠ t)) := by
  intro after
  induction after with
  | nil =>
    intro before _
    simp [complete_graph_aux, conflicts_of]
  | cons a as ih =>
    intro before hnd
    show u ∈ conflicts_of ((a, before ++ as) :: _) t ↔ _
    rw [conflicts_of_cons]
    by_cases hat : a = t
    · subst hat
      rw [if_pos rfl]
      have hnotb : a ∉ before := by
        intro h
        exact (List.disjoint_of_nodup_append hnd) h (by simp)
      have hnota : a ∉ as := by
        have := (List.nodup_append.mp hnd).2.1
        simp only [List.nodup_cons] at this
        exact this.1
      constructor
      · intro hu
        refine ⟨by simp, ?_, ?_⟩
        · rcases List.mem_append.mp hu with h | h
          · exact List.mem_append_left _ h
          · exact List.mem_append_right _ (List.mem_cons_of_mem _ h)
        · intro hue
          subst hue
          rcases List.mem_append.mp hu with h | h
          · exact hnotb h
          · exact hnota h
      · rintro ⟨_, hu, hne⟩
        rcases List.mem_append.mp hu with h | h
        · exact List.mem_append_left _ h
        · rcases List.mem_cons.mp h with h' | h'
          · exact absurd h' hne
          · exact List.mem_append_right _ h'
    · rw [if_neg hat]
      have hnd' : ((before ++ [a]) ++ as).Nodup := by
        rw [List.append_assoc]
        exact hnd
      rw [ih (before ++ [a]) hnd']
      constructor
      · rintro ⟨h1, h2, h3⟩
        refine ⟨List.mem_cons_of_mem _ h1, ?_, h3⟩
        rw [List.append_assoc] at h2
        exact h2
      · rintro ⟨h1, h2, h3⟩
        have h1' : t ∈ as := by
          rcases List.mem_cons.mp h1 with h' | h'
          · exact absurd h'.symm hat
          · exact h'
        refine ⟨h1', ?_, h3⟩
        rw [List.append_assoc]
        exact h2

theorem complete_conflicts_mem (txs : List TxId) (hnd : txs.Nodup)
    (u t : TxId) :
    u ∈ conflicts_of (generate_complete_conflict_graph txs) t ↔
      (t ∈ txs ∧ u ∈ txs ∧ u ≠ t) := by
  have := complete_graph_aux_mem u t txs [] (by simpa using hnd)
  simpa using this

theorem complete_symm (txs : List TxId) (hnd : txs.Nodup) :
    ∀ t u, u ∈ conflicts_of (generate_complete_conflict_graph txs) t →
      t ∈ conflicts_of (generate_complete_conflict_graph txs) u := by
  intro t u h
  rw [complete_conflicts_mem txs hnd] at h ⊢
  exact ⟨h.2.1, h.1, fun he => h.2.2 he.symm⟩

theorem complete_irr (txs : List TxId) (hnd : txs.Nodup) :
    ∀ t, t ∉ conflicts_of (generate_complete_conflict_graph txs) t := by
  intro t h
  rw [complete_conflicts_mem txs hnd] at h
  exact h.2.2 rfl

theorem conflicts_of_leaf_map (center : TxId) :
    ∀ (leaves : List TxId) (t : TxId),
      conflicts_of (leaves.map (fun l => (l, [center]))) t =
        if t ∈ leaves then [center] else [] := by
  intro leaves
  induction leaves with
  | nil => intro t; simp [conflicts_of]
  | cons l ls ih =>
    intro t
    show conflicts_of ((l, [center]) :: _) t = _
    rw [conflicts_of_cons, ih]
    by_cases h : l = t
    · simp [h]
    · have : t ≠ l := fun he => h he.symm
      simp [h, this, List.mem_cons]

theorem star_conflicts_eq (center : TxId) (leaves : List TxId) (t : TxId) :
    conflicts_of ((center, leaves) ::
        leaves.map (fun l => (l, [center]))) t =
      if t = center then leaves
      else if t ∈ leaves then [center] else [] := by
  rw [conflicts_of_cons, conflicts_of_leaf_map]
  by_cases h : center = t
  · simp [h]
  · have : ¬ t = center := fun he => h he.symm
    simp [h, this]

theorem star_symm (center : TxId) (leaves : List TxId)
    (hnd : (center :: leaves).Nodup) :
    ∀ t u, u ∈ conflicts_of ((center, leaves) ::
        leaves.map (fun l => (l, [center]))) t →
      t ∈ conflicts_of ((center, leaves) ::
        leaves.map (fun l => (l, [center]))) u := by
  have hc : center ∉ leaves := (List.nodup_cons.mp hnd).1
  intro t u h
  rw [star_conflicts_eq] at h ⊢
  by_cases ht : t = center
  · rw [if_pos ht] at h
    have huc : ¬ u = center := fun he => hc (he ▸ h)
    rw [if_neg huc, if_pos h, ht]
    simp
  · rw [if_neg ht] at h
    by_cases htl : t ∈ leaves
    · rw [if_pos htl] at h
      simp only [List.mem_singleton] at h
      subst h
      rw [if_pos rfl]
      exact htl
    · rw [if_neg htl] at h
      simp at h

theorem star_irr (center : TxId) (leaves : List TxId)
    (hnd : (center :: leaves).Nodup) :
    ∀ t, t ∉ conflicts_of ((center, leaves) ::
        leaves.map (fun l => (l, [center]))) t := by
  have hc : center ∉ leaves := (List.nodup_cons.mp hnd).1
  intro t h
  rw [star_conflicts_eq] at h
  by_cases ht : t = center
  · rw [if_pos ht] at h
    exact hc (ht ▸ h)
  · rw [if_neg ht] at h
    by_cases htl : t ∈ leaves
    · rw [if_pos htl] at h
      simp only [List.mem_singleton] at h
      exact ht h
    · rw [if_neg htl] at h
      simp at h

theorem generated_graph_symm_irr (g : TxGraphType) (txs : List TxId)
    (hnd : txs.Nodup) (vision : List (TxId × List TxId))
    (hv : generate_conflict_graph g txs = Except.ok vision) :
    (∀ t u, u ∈ conflicts_of vision t → t ∈ conflicts_of vision u)
    ∧ (∀ t, t ∉ conflicts_of vision t) := by
  cases g with
  | complete =>
    have : vision = generate_complete_conflict_graph txs := by
      simpa [generate_conflict_graph] using hv.symm
    subst this
    exact ⟨complete_symm txs hnd, complete_irr txs hnd⟩
  | star =>
    cases txs with
    | nil => simp [generate_conflict_graph, generate_star_conflict_graph] at hv
    | cons center leaves =>
      have : vision = (center, leaves) ::
          leaves.map (fun l => (l, [center])) := by
        simpa [generate_conflict_graph, generate_star_conflict_graph]
          using hv.symm
      subst this
      exact ⟨star_symm center leaves hnd, star_irr center leaves hnd⟩

/- ------------------------------------------------------------------ -/
/- Control flow of generate_new.                                      -/
/- ------------------------------------------------------------------ -/

theorem gcg_complete (txs : List TxId) :
    generate_conflict_graph TxGraphType.complete txs =
      Except.ok (generate_complete_conflict_graph txs) := rfl

theorem gcg_star_nil :
    generate_conflict_graph TxGraphType.star [] =
      Except.error PanicKind.indexOutOfBounds := rfl

theorem gcg_star_cons (c : TxId) (ls : List TxId) :
    generate_conflict_graph TxGraphType.star (c :: ls) =
      Except.ok ((c, ls) :: ls.map (fun l => (l, [c]))) := rfl

theorem generate_new_guard (total faulty malicious tx_count : ℕ)
    (g : TxGraphType) (dist : LikeDistributions) (txs : List TxId)
    (h : total ≤ malicious + faulty) :
    generate_new total faulty malicious tx_count g dist txs
      = Except.error PanicKind.notEnoughHonest := by
  unfold generate_new
  rw [if_pos h]

theorem generate_new_gcg_err (total faulty malicious tx_count : ℕ)
    (g : TxGraphType) (dist : LikeDistributions) (txs : List TxId)
    (h : ¬ total ≤ malicious + faulty) (e : PanicKind)
    (hv : generate_conflict_graph g txs = Except.error e) :
    generate_new total faulty malicious tx_count g dist txs
      = Except.error e := by
  unfold generate_new
  rw [if_neg h, hv]

theorem generate_new_div0 (total faulty malicious tx_count : ℕ)
    (g : TxGraphType) (dist : LikeDistributions) (txs : List TxId)
    (h : ¬ total ≤ malicious + faulty)
    (vision : List (TxId × List TxId))
    (hv : generate_conflict_graph g txs = Except.ok vision)
    (hltc : liked_tx_count dist tx_count = 0) :
    generate_new total faulty malicious tx_count g dist txs
      = Except.error PanicKind.divByZero := by
  unfold generate_new
  rw [if_neg h, hv]
  dsimp only
  rw [if_pos hltc]

theorem generate_new_ok_branch (total faulty malicious tx_count : ℕ)
    (g : TxGraphType) (dist : LikeDistributions) (txs : List TxId)
    (h : ¬ total ≤ malicious + faulty)
    (vision : List (TxId × List TxId))
    (hv : generate_conflict_graph g txs = Except.ok vision)
    (hltc : liked_tx_count dist tx_count ≠ 0) :
    ∃ out, generate_new total faulty malicious tx_count g dist txs
      = Except.ok out := by
  unfold generate_new
  rw [if_neg h, hv]
  dsimp only
  rw [if_neg hltc]
  exact ⟨_, rfl⟩

theorem generate_new_cases (total faulty malicious tx_count : ℕ)
    (g : TxGraphType) (dist : LikeDistributions) (txs : List TxId)
    (hlen : txs.length = tx_count) :
    (total ≤ malicious + faulty ∧
      generate_new total faulty malicious tx_count g dist txs
        = Except.error PanicKind.notEnoughHonest)
    ∨ (¬ total ≤ malicious + faulty ∧ g = TxGraphType.star ∧ tx_count = 0 ∧
      generate_new total faulty malicious tx_count g dist txs
        = Except.error PanicKind.indexOutOfBounds)
    ∨ (¬ total ≤ malicious + faulty ∧ ¬ (g = TxGraphType.star ∧ tx_count = 0)
        ∧ liked_tx_count dist tx_count = 0 ∧
      generate_new total faulty malicious tx_count g dist txs
        = Except.error PanicKind.divByZero)
    ∨ (¬ total ≤ malicious + faulty ∧ ¬ (g = TxGraphType.star ∧ tx_count = 0)
        ∧ liked_tx_count dist tx_count ≠ 0 ∧
      ∃ out, generate_new total faulty malicious tx_count g dist txs
        = Except.ok out) := by
  by_cases hg : total ≤ malicious + faulty
  · exact Or.inl ⟨hg,
      generate_new_guard total faulty malicious tx_count g dist txs hg⟩
  · right
    have hdis : (g = TxGraphType.star ∧ txs = [])
        ∨ ∃ vision, generate_conflict_graph g txs = Except.ok vision := by
      cases g with
      | complete => exact Or.inr ⟨_, rfl⟩
      | star =>
        cases txs with
        | nil => exact Or.inl ⟨rfl, rfl⟩
        | cons c ls => exact Or.inr ⟨_, gcg_star_cons c ls⟩
    rcases hdis with ⟨hgs, htxs⟩ | ⟨vision, hv⟩
    · left
      have htc : tx_count = 0 := by
        rw [← hlen, htxs]
        rfl
      subst hgs
      subst htxs
      exact ⟨hg, rfl, htc,
        generate_new_gcg_err total faulty malicious tx_count _ dist [] hg _
          gcg_star_nil⟩
    · right
      have hns : ¬ (g = TxGraphType.star ∧ tx_count = 0) := by
        rintro ⟨hgs, htc⟩
        subst hgs
        have : txs = [] := List.length_eq_zero.mp (hlen.trans htc)
        subst this
        rw [gcg_star_nil] at hv
        exact Except.noConfusion hv
      by_cases hltc : liked_tx_count dist tx_count = 0
      · exact Or.inl ⟨hg, hns, hltc,
          generate_new_div0 total faulty malicious tx_count g dist txs hg
            vision hv hltc⟩
      · exact Or.inr ⟨hg, hns, hltc,
          generate_new_ok_branch total faulty malicious tx_count g dist txs hg
            vision hv hltc⟩

/- ------------------------------------------------------------------ -/
/- Concrete conflict assignments: symmetry and irreflexivity.         -/
/- ------------------------------------------------------------------ -/

theorem pair_conflicts_symm :
    ∀ t u, u ∈ pair_conflicts t → t ∈ pair_conflicts u := by
  intro t u h
  unfold pair_conflicts at h ⊢
  by_cases h0 : t = 0
  · subst h0
    have h' : u = 1 := by simpa using h
    subst h'
    decide
  · by_cases h1 : t = 1
    · subst h1
      have h' : u = 0 := by simpa using h
      subst h'
      decide
    · rw [if_neg h0, if_neg h1] at h
      exact absurd h (List.not_mem_nil u)

theorem pair_conflicts_irr : ∀ t, t ∉ pair_conflicts t := by
  intro t h
  unfold pair_conflicts at h
  by_cases h0 : t = 0
  · subst h0
    simp at h
  · by_cases h1 : t = 1
    · subst h1
      simp at h
    · rw [if_neg h0, if_neg h1] at h
      exact absurd h (List.not_mem_nil t)

/- ------------------------------------------------------------------ -/
/- The claims.                                                        -/
/- ------------------------------------------------------------------ -/

/-- C1: Monotone finality.  Across any sequence of per-round opinion
updates applied to a node's vision whose conflict relation is symmetric and
which starts (as `generate_new` leaves it) with no `Final` opinion, once the
node's opinion on a transaction is `Final(v)` it stays `Final(v)` forever —
it never reverts to `Pending` and its boolean never changes, including
under the `Final(false)` cascade of `update_opinions`. -/
theorem c1_monotone_finality (conflicts : TxId → List TxId)
    (ops : TxId → Opinion)
    (hsymm : ∀ t u, u ∈ conflicts t → t ∈ conflicts u)
    (hnofinal : ∀ t, (ops t).is_final = false) :
    ∀ (rounds1 rounds2 : List (List (TxId × Bool))) (t : TxId) (v : Bool),
      run_rounds conflicts ops rounds1 t = Opinion.final v →
      run_rounds conflicts ops (rounds1 ++ rounds2) t = Opinion.final v := by
  intro r1 r2 t v h
  have hJ : FinalIndep conflicts ops := by
    intro x hx
    exfalso
    have := hnofinal x
    rw [hx] at this
    simp [Opinion.is_final] at this
  have h1 := run_rounds_mono_indep conflicts hsymm r1 ops hJ
  have h2 := run_rounds_mono_indep conflicts hsymm r2
    (run_rounds conflicts ops r1) h1.2
  have happ : run_rounds conflicts ops (r1 ++ r2)
      = run_rounds conflicts (run_rounds conflicts ops r1) r2 := by
    simp [run_rounds, List.foldl_append]
  rw [happ]
  exact h2.1 t v h

/-- Witness for C1: with no conflicts and every opinion at
`Pending(true, 4)`, the round vector `[(0, true)]` finalizes transaction
`0` to `Final(true)`, and a further disagreeing round leaves it
`Final(true)`. -/
theorem c1_monotone_finality_witness :
    run_rounds no_conflicts all_pending_ops ([[(0, true)]] ++ [[(0, false)]]) 0
      = Opinion.final true :=
  c1_monotone_finality no_conflicts all_pending_ops
    (fun t u h => absurd h (List.not_mem_nil u))
    (fun _ => rfl)
    [[(0, true)]] [[(0, false)]] 0 true (by decide)

/-- C2: COMP maximality.  For a vision whose conflict relation is
symmetric and irreflexive, when `comp` runs on an auxiliary opinion whose
liked set is independent (as `elim` guarantees), the transactions mapped to
`true` in the result form a maximal independent set: no two liked
transactions conflict, and every unliked transaction conflicts with some
liked one. -/
theorem c2_comp_maximal (conflicts : TxId → List TxId) (key : TxId → ℕ)
    (aux : List (TxId × Bool))
    (hsymm : ∀ t u, u ∈ conflicts t → t ∈ conflicts u)
    (hirr : ∀ t, t ∉ conflicts t)
    (hindep : ∀ t u, (t, true) ∈ aux → (u, true) ∈ aux → u ∉ conflicts t) :
    (∀ t u, (t, true) ∈ comp conflicts key aux →
      (u, true) ∈ comp conflicts key aux → t ≠ u → u ∉ conflicts t)
    ∧ (∀ t, (t, false) ∈ comp conflicts key aux →
        ∃ u, (u, true) ∈ comp conflicts key aux ∧ u ∈ conflicts t) := by
  have hperm := sort_asc_perm key aux
  have hcomp : comp conflicts key aux =
      (comp_loop conflicts (sort_asc key aux)
        (liked_set_of (sort_asc key aux))).1 := rfl
  have hmem : ∀ x, (x, true) ∈ sort_asc key aux →
      x ∈ liked_set_of (sort_asc key aux) :=
    fun x hx => (mem_liked_set_of _ x).mpr hx
  have hind0 : ∀ u ∈ liked_set_of (sort_asc key aux),
      ∀ v ∈ liked_set_of (sort_asc key aux), v ∉ conflicts u := by
    intro u hu v hv
    have hu' := (mem_liked_set_of _ u).mp hu
    have hv' := (mem_liked_set_of _ v).mp hv
    exact hindep u v (hperm.mem_iff.mp hu') (hperm.mem_iff.mp hv')
  constructor
  · intro t u ht hu _
    rw [hcomp] at ht hu
    have htL := comp_loop_true_in_liked conflicts _ _ t hmem ht
    have huL := comp_loop_true_in_liked conflicts _ _ u hmem hu
    exact comp_loop_liked_indep conflicts hsymm hirr _ _ hind0 t htL u huL
  · intro t ht
    rw [hcomp] at ht
    obtain ⟨u, huL, huc⟩ := comp_loop_false_conflict conflicts _ _ t ht
    rcases comp_loop_liked_src conflicts _ _ u huL with h | h
    · have hu' := (mem_liked_set_of _ u).mp h
      exact ⟨u, comp_loop_true_preserved conflicts _ _ u hu', huc⟩
    · exact ⟨u, h, huc⟩

/-- Witness for C2: with the `0 ↔ 1` conflict pair and the all-false
auxiliary opinion on `[0, 1]`, the COMP output is a maximal independent
set. -/
theorem c2_comp_maximal_witness :
    (∀ t u, (t, true) ∈ comp pair_conflicts id_key [(0, false), (1, false)] →
      (u, true) ∈ comp pair_conflicts id_key [(0, false), (1, false)] →
      t ≠ u → u ∉ pair_conflicts t)
    ∧ (∀ t, (t, false) ∈ comp pair_conflicts id_key [(0, false), (1, false)] →
        ∃ u, (u, true) ∈ comp pair_conflicts id_key [(0, false), (1, false)]
          ∧ u ∈ pair_conflicts t) :=
  c2_comp_maximal pair_conflicts id_key [(0, false), (1, false)]
    pair_conflicts_symm pair_conflicts_irr
    (fun t u ht _ => absurd ht (by simp))

/-- C3: ELIM independence.  For a vision whose conflict relation is
symmetric, after `elim` runs on an auxiliary opinion vector with pairwise
distinct transaction ids, the transactions still mapped to `true` form an
independent set: no two of them conflict. -/
theorem c3_elim_independent (conflicts : TxId → List TxId) (key : TxId → ℕ)
    (aux : List (TxId × Bool))
    (hsymm : ∀ t u, u ∈ conflicts t → t ∈ conflicts u)
    (hnd : (aux.map Prod.fst).Nodup) :
    ∀ t u, (t, true) ∈ elim conflicts key aux →
      (u, true) ∈ elim conflicts key aux → t ≠ u → u ∉ conflicts t := by
  intro t u ht hu _
  have hperm := sort_desc_perm key aux
  have helim : elim conflicts key aux =
      (elim_loop conflicts (sort_desc key aux)
        (liked_set_of (sort_desc key aux))).1 := rfl
  rw [helim] at ht hu
  have hnd' : ((sort_desc key aux).map Prod.fst).Nodup :=
    ((hperm.map Prod.fst).nodup_iff).mpr hnd
  have hmem : ∀ x, (x, true) ∈ sort_desc key aux →
      x ∈ liked_set_of (sort_desc key aux) :=
    fun x hx => (mem_liked_set_of _ x).mpr hx
  have huL := elim_loop_final_liked conflicts _ _ u hu hmem hnd'
  exact elim_loop_survivor_indep conflicts _ _ t ht u huL

/-- Witness for C3: with the `0 ↔ 1` conflict pair and all three
transactions liked, ELIM keeps `0` and `2` liked and they do not
conflict. -/
theorem c3_elim_independent_witness :
    ((([(0, true), (1, true), (2, true)] : List (TxId × Bool)).map
        Prod.fst).Nodup)
    ∧ (2 : TxId) ∉ pair_conflicts 0 :=
  ⟨by decide,
   c3_elim_independent pair_conflicts id_key [(0, true), (1, true), (2, true)]
     pair_conflicts_symm (by decide) 0 2 (by decide) (by decide) (by decide)⟩

/-- C4: Sampling index range — refuted on the code.  The Rust division is
by `u64::max_value() = 2^64 - 1`, not by `2^64`: at the 64-bit draw
`r' = 2^64 - 1` with a neighborhood of size `2` the computed index is `2`,
equal to the neighborhood size, so `neighborhood[index]` is out of bounds
and panics.  The spec's own formula `(r' * n) / 2^64` would have stayed in
range at the same input. -/
theorem c4_sample_index_out_of_range :
    sample_index (2 ^ 64 - 1) 2 = 2
    ∧ ¬ sample_index (2 ^ 64 - 1) 2 < 2
    ∧ (2 ^ 64 - 1) * 2 / 2 ^ 64 < 2 := by
  refine ⟨?_, by decide, by decide⟩
  decide

/-- C5 (counterexample): the threshold computed by the code divides by
`u32::max_value() = 2^32 - 1`, not by `2^32` as the claim states.  At round
random `r = 3435973836` (inside the β-range) with `q = min 5 10 = 5` the
code's threshold is `4` while `floor(r*q / 2^32) = 3`: a tally of `4` is
mapped to `false` by the code although the claimed formula would map it to
`true`. -/
theorem c5_threshold_counterexample :
    (3435973836 * min 5 10) / (2 ^ 32 - 1) = 4
    ∧ (3435973836 * min 5 10) / 2 ^ 32 = 3
    ∧ threshold_and_aux 5 10 3435973836 [(0, 4)] = [(0, false)] := by
  refine ⟨by decide, by decide, ?_⟩
  decide

/-- C5 (amended): in `collect_and_set_new_opinion` the threshold equals
`floor((r * q) / (2^32 - 1))` with `q = min(k, |neighborhood|)`, in exact
integer arithmetic, and for each transaction the auxiliary opinion entering
ELIM is `true` exactly when its tally exceeds that threshold. -/
theorem c5_threshold_amended (k nb_len r : ℕ) (eta : List (TxId × ℕ))
    (tx : TxId) (n : ℕ) (hmem : (tx, n) ∈ eta)
    (hnd : (eta.map Prod.fst).Nodup) :
    ((tx, true) ∈ threshold_and_aux k nb_len r eta ↔
      (r * min k nb_len) / (2 ^ 32 - 1) < n) := by
  unfold threshold_and_aux
  constructor
  · intro h
    simp only [List.mem_map] at h
    obtain ⟨p, hp, heq⟩ := h
    have h1 : p.1 = tx := (Prod.mk.injEq _ _ _ _ ▸ heq).1
    have h2 : decide ((r * min k nb_len) / (2 ^ 32 - 1) < p.2) = true :=
      (Prod.mk.injEq _ _ _ _ ▸ heq).2
    have hp' : (tx, p.2) ∈ eta := by
      rw [← h1, Prod.mk.eta]
      exact hp
    have hpn : p.2 = n := nodup_keys_eq eta tx p.2 n hnd hp' hmem
    rw [← hpn]
    exact of_decide_eq_true h2
  · intro h
    refine List.mem_map.mpr ⟨(tx, n), hmem, ?_⟩
    show (tx, decide ((r * min k nb_len) / (2 ^ 32 - 1) < n)) = (tx, true)
    rw [decide_eq_true h]

/-- Witness for C5 (amended): with one tally entry `(0, 1)` and `r = 0`,
the auxiliary opinion on transaction `0` is `true` iff `0 < 1`. -/
theorem c5_threshold_amended_witness :
    ((0, true) ∈ threshold_and_aux 5 10 0 [(0, 1)] ↔
      (0 * min 5 10) / (2 ^ 32 - 1) < 1) :=
  c5_threshold_amended 5 10 0 [(0, 1)] 0 1 (by decide) (by decide)

/-- C6: Finalization cascade.  In `update_opinions`, whenever a
transaction's prior opinion is `Pending(a, s)` with `a = true`, the new
auxiliary opinion is `true` and `s ≥ L - 1`, the transaction becomes
`Final(true)` and every transaction in its conflict set is set to
`Final(false)` — so immediately after the transition every conflicter is
`Final(false)` in the same vision.  (The transaction is not its own
conflicter, as the generated conflict graphs guarantee.) -/
theorem c6_finalization_cascade (conflicts : TxId → List TxId)
    (ops : TxId → Opinion) (tx : TxId) (s : ℕ)
    (hop : ops tx = Opinion.pending true s) (hs : L - 1 ≤ s)
    (hirr : tx ∉ conflicts tx) :
    update_one conflicts ops (tx, true) tx = Opinion.final true
    ∧ ∀ c ∈ conflicts tx,
        update_one conflicts ops (tx, true) c = Opinion.final false := by
  have hc : (true && true && decide (L - 1 ≤ s)) = true := by simp [hs]
  have happ := update_one_finalize_apply conflicts ops tx true true s hop hc
  constructor
  · rw [happ tx]
    simp [hirr]
  · intro c hcin
    rw [happ c]
    simp [hcin]

/-- Witness for C6: transaction `0` at `Pending(true, 4)` with conflicters
`1` and `2` finalizes to `Final(true)` and both conflicters become
`Final(false)`. -/
theorem c6_finalization_cascade_witness :
    update_one fan_conflicts all_pending_ops (0, true) 0 = Opinion.final true
    ∧ ∀ c ∈ fan_conflicts 0,
        update_one fan_conflicts all_pending_ops (0, true) c
          = Opinion.final false :=
  c6_finalization_cascade fan_conflicts all_pending_ops 0 4 rfl
    (by decide) (by decide)

/-- C7: Initial independence.  For the vision produced by either conflict
graph generator on pairwise distinct transaction ids, a node seeded by
`initialize_opinions` with at most one liked transaction (the zip gives
each honest node exactly one entry of the expanded like proportions) ends
the fill loop with no `None` opinion left — every opinion is
`Pending(b, 0)` — and the set of transactions it likes is an independent
set of the conflict graph.  The key list is any duplicate-free enumeration
of the vision's transactions (the source iterates the `BTreeMap` in key
order). -/
theorem c7_initial_independence (txs : List TxId) (hnd : txs.Nodup)
    (g : TxGraphType) (vision : List (TxId × List TxId))
    (hv : generate_conflict_graph g txs = Except.ok vision)
    (keys : List TxId) (hknd : keys.Nodup)
    (expanded : List TxId) (i : ℕ) :
    (∀ t ∈ keys, ∃ b,
      initialize_node_opinions (conflicts_of vision) keys
        (seeded_ops expanded i) t = Opinion.pending b 0)
    ∧ (∀ t u, t ∈ keys → u ∈ keys →
        (initialize_node_opinions (conflicts_of vision) keys
          (seeded_ops expanded i) t).is_like = true →
        (initialize_node_opinions (conflicts_of vision) keys
          (seeded_ops expanded i) u).is_like = true →
        t ≠ u → u ∉ conflicts_of vision t) := by
  obtain ⟨hsymm, hirr⟩ := generated_graph_symm_irr g txs hnd vision hv
  have hspec := initialize_node_opinions_spec (conflicts_of vision) hsymm hirr
    keys hknd (seeded_ops expanded i) (seeded_ops_init expanded i)
    (seeded_ops_one expanded i)
  exact ⟨hspec.1, fun t u ht hu hlt hlu _ => hspec.2 t u ht hu hlt hlu⟩

/-- Witness for C7: the complete conflict graph on `[0, 1, 2]` with the
node seeded to like transaction `0`. -/
theorem c7_initial_independence_witness :
    (∀ t ∈ ([0, 1, 2] : List TxId), ∃ b,
      initialize_node_opinions
        (conflicts_of (generate_complete_conflict_graph [0, 1, 2]))
        [0, 1, 2] (seeded_ops [0] 0) t = Opinion.pending b 0)
    ∧ (∀ t u, t ∈ ([0, 1, 2] : List TxId) → u ∈ ([0, 1, 2] : List TxId) →
        (initialize_node_opinions
          (conflicts_of (generate_complete_conflict_graph [0, 1, 2]))
          [0, 1, 2] (seeded_ops [0] 0) t).is_like = true →
        (initialize_node_opinions
          (conflicts_of (generate_complete_conflict_graph [0, 1, 2]))
          [0, 1, 2] (seeded_ops [0] 0) u).is_like = true →
        t ≠ u →
        u ∉ conflicts_of (generate_complete_conflict_graph [0, 1, 2]) t) :=
  c7_initial_independence [0, 1, 2] (by decide) TxGraphType.complete
    (generate_complete_conflict_graph [0, 1, 2]) rfl
    [0, 1, 2] (by decide) [0] 0

/-- C8 (counterexample): the claimed equivalence fails.  With one node, no
faulty and no malicious nodes the precondition `faulty + malicious <
total_nodes` holds, yet `generate_new` still fails fatally: with
`Concentrated(0)` the like distribution divides by zero. -/
theorem c8_construction_counterexample :
    (0 + 0 < 1)
    ∧ generate_new 1 0 0 1 TxGraphType.complete
        (LikeDistributions.concentrated 0) [5]
      = Except.error PanicKind.divByZero := by
  exact ⟨by decide, rfl⟩

/-- C8 (amended): `generate_new` panics with its insufficient-honest-nodes
error if and only if `faulty + malicious ≥ total_node_count`; when the
precondition holds, construction succeeds exactly when the like-carrying
transaction count is nonzero (and, for the `Star` graph, the transaction
count is nonzero — otherwise it panics later with a division by zero,
respectively an index out of bounds). -/
theorem c8_construction_amended (total faulty malicious tx_count : ℕ)
    (g : TxGraphType) (dist : LikeDistributions) (txs : List TxId)
    (hlen : txs.length = tx_count) :
    ((generate_new total faulty malicious tx_count g dist txs
        = Except.error PanicKind.notEnoughHonest)
      ↔ total ≤ malicious + faulty)
    ∧ ((∃ out, generate_new total faulty malicious tx_count g dist txs
        = Except.ok out)
      ↔ (malicious + faulty < total ∧ liked_tx_count dist tx_count ≠ 0
          ∧ (g = TxGraphType.star → tx_count ≠ 0))) := by
  rcases generate_new_cases total faulty malicious tx_count g dist txs hlen
    with ⟨hg, hres⟩ | ⟨hg, hgs, htc, hres⟩ | ⟨hg, hns, hltc, hres⟩
      | ⟨hg, hns, hltc, out, hres⟩
  · constructor
    · exact ⟨fun _ => hg, fun _ => hres⟩
    · constructor
      · rintro ⟨o, ho⟩
        rw [hres] at ho
        exact Except.noConfusion ho
      · rintro ⟨hlt, _, _⟩
        omega
  · constructor
    · constructor
      · intro h
        rw [hres] at h
        have := Except.error.inj h
        exact absurd this (by decide)
      · intro h
        exact absurd h hg
    · constructor
      · rintro ⟨o, ho⟩
        rw [hres] at ho
        exact Except.noConfusion ho
      · rintro ⟨_, _, hstar⟩
        exact absurd htc (hstar hgs)
  · constructor
    · constructor
      · intro h
        rw [hres] at h
        have := Except.error.inj h
        exact absurd this (by decide)
      · intro h
        exact absurd h hg
    · constructor
      · rintro ⟨o, ho⟩
        rw [hres] at ho
        exact Except.noConfusion ho
      · rintro ⟨_, hltc', _⟩
        exact absurd hltc hltc'
  · constructor
    · constructor
      · intro h
        rw [hres] at h
        exact Except.noConfusion h
      · intro h
        exact absurd h hg
    · constructor
      · intro _
        refine ⟨by omega, hltc, ?_⟩
        intro hgs htc
        exact hns ⟨hgs, htc⟩
      · intro _
        exact ⟨out, hres⟩

/-- Witness for C8 (amended): a configuration with one honest, one faulty
and one malicious node over two transactions. -/
theorem c8_construction_amended_witness :
    ((generate_new 3 1 1 2 TxGraphType.complete LikeDistributions.equal
        [7, 9] = Except.error PanicKind.notEnoughHonest) ↔ 3 ≤ 1 + 1)
    ∧ ((∃ out, generate_new 3 1 1 2 TxGraphType.complete
        LikeDistributions.equal [7, 9] = Except.ok out)
      ↔ (1 + 1 < 3 ∧ liked_tx_count LikeDistributions.equal 2 ≠ 0
          ∧ (TxGraphType.complete = TxGraphType.star → 2 ≠ 0))) :=
  c8_construction_amended 3 1 1 2 TxGraphType.complete
    LikeDistributions.equal [7, 9] rfl

/-- C9: ELIM idempotence on independent input.  For a vision whose conflict
relation is symmetric, if the liked set of the input auxiliary opinion is
already independent then `elim` changes no opinion value: the
transaction-to-boolean mapping after `elim` equals the one before it. -/
theorem c9_elim_idempotent (conflicts : TxId → List TxId) (key : TxId → ℕ)
    (aux : List (TxId × Bool))
    (hsymm : ∀ t u, u ∈ conflicts t → t ∈ conflicts u)
    (hindep : ∀ t u, (t, true) ∈ aux → (u, true) ∈ aux → u ∉ conflicts t) :
    ∀ t b, ((t, b) ∈ elim conflicts key aux ↔ (t, b) ∈ aux) := by
  have hperm := sort_desc_perm key aux
  have hind : ∀ t u, (t, true) ∈ sort_desc key aux →
      u ∈ liked_set_of (sort_desc key aux) → u ∉ conflicts t := by
    intro t u ht hu
    have ht' := hperm.mem_iff.mp ht
    have hu' := hperm.mem_iff.mp ((mem_liked_set_of _ u).mp hu)
    exact hindep t u ht' hu'
  have helim : elim conflicts key aux = sort_desc key aux := by
    show (elim_loop conflicts (sort_desc key aux)
      (liked_set_of (sort_desc key aux))).1 = _
    rw [elim_loop_noop conflicts (sort_desc key aux)
      (liked_set_of (sort_desc key aux)) hind]
  intro t b
  rw [helim]
  exact hperm.mem_iff

/-- Witness for C9: with the `0 ↔ 1` conflict pair, the independent input
liking `0` and `2` passes through ELIM unchanged as a mapping. -/
theorem c9_elim_idempotent_witness :
    ((0, true) ∈ elim pair_conflicts id_key [(0, true), (2, true)] ↔
      ((0 : TxId), true) ∈ ([(0, true), (2, true)] : List (TxId × Bool))) :=
  c9_elim_idempotent pair_conflicts id_key [(0, true), (2, true)]
    pair_conflicts_symm
    (by
      intro t u ht hu
      simp only [List.mem_cons, List.not_mem_nil, or_false,
        Prod.mk.injEq] at ht hu
      rcases ht with ⟨h1, _⟩ | ⟨h1, _⟩ <;> rcases hu with ⟨h2, _⟩ | ⟨h2, _⟩ <;>
        subst h1 <;> subst h2 <;> decide)
    0 true

/-- C10 (counterexample): the claim says every zero-liked-count
configuration panics with a division by zero, but with the `Star` graph
and zero transactions `generate_new` panics earlier, indexing
`tx_id_set[0]` out of bounds in the star generator — even though the
precondition holds and the liked transaction count is zero. -/
theorem c10_generate_new_counterexample :
    (0 + 0 < 1)
    ∧ liked_tx_count LikeDistributions.equal 0 = 0
    ∧ generate_new 1 0 0 0 TxGraphType.star LikeDistributions.equal []
        = Except.error PanicKind.indexOutOfBounds := by
  exact ⟨by decide, rfl, rfl⟩

/-- C10 (amended): whenever the stated precondition holds, the number of
like-carrying transactions is zero (`Concentrated(0)`, or `Equal` with
`tx_count = 0`) and the configuration is not `Star` with zero transactions
(which panics earlier with an index out of bounds), `generate_new` panics
with a division by zero, because it computes
`honest_node_count / liked_tx_count` unconditionally. -/
theorem c10_generate_new_amended (total faulty malicious tx_count : ℕ)
    (g : TxGraphType) (dist : LikeDistributions) (txs : List TxId)
    (hlen : txs.length = tx_count)
    (hpre : malicious + faulty < total)
    (hltc : liked_tx_count dist tx_count = 0)
    (hns : ¬ (g = TxGraphType.star ∧ tx_count = 0)) :
    generate_new total faulty malicious tx_count g dist txs
      = Except.error PanicKind.divByZero := by
  rcases generate_new_cases total faulty malicious tx_count g dist txs hlen
    with ⟨hg, _⟩ | ⟨_, hgs, htc, _⟩ | ⟨_, _, _, hres⟩ | ⟨_, _, hltc', _⟩
  · omega
  · exact absurd ⟨hgs, htc⟩ hns
  · exact hres
  · exact absurd hltc hltc'

/-- Witness for C10 (amended): one honest node, `Complete` graph on one
transaction, `Concentrated(0)` distribution. -/
theorem c10_generate_new_amended_witness :
    generate_new 1 0 0 1 TxGraphType.complete
        (LikeDistributions.concentrated 0) [7]
      = Except.error PanicKind.divByZero :=
  c10_generate_new_amended 1 0 0 1 TxGraphType.complete
    (LikeDistributions.concentrated 0) [7] rfl (by decide) rfl
    (by rintro ⟨h, _⟩; exact TxGraphType.noConfusion h)

end FPCS
